import Mathlib

/-!
Verification development for the constraint-based structure estimator
(PC algorithm with a chi-square conditional-independence oracle) of
pgmpy/estimators/ConstraintBasedEstimator.py.

The Python code is shallowly embedded:

* The undirected graph capability (from pgmpy.base.UndirectedGraph, whose
  source is outside the estimator file) is modelled from the spec as an
  explicit node list plus an edge list; `neighbors` returns a stable
  snapshot list, as the spec requires.
* `estimate_skeleton` is embedded with an explicit fuel parameter (the
  loop provably needs at most one round per variable) and, as proof
  instrumentation, a ghost log that records each edge removal event
  together with the neighbour context in which it happened.  The log does
  not influence the computation.
* The orientation phase of `estimate` is embedded together with the
  Python iterator protocol: `node_pairs` is a single-use iterator, so a
  for loop consumes it and leaves it exhausted.  The bodies of the three
  propagation rules are embedded as `Option`-valued steps because any
  execution of them raises in Python (rule 2 references the name `nx`
  which is never imported; rules 1 and 3 call a `remove` method that the
  graph class does not define).  They only ever run on the exhausted
  iterator, hence never execute.
* `test_conditional_independence` works over exact counts; the only
  floating-point behaviour that matters is that a zero z-marginal makes
  the expected cell 0*0/0 = NaN and that NaN compares unequal to 0, so
  numbers are modelled as rationals extended with an explicit NaN
  element.  (IEEE division can also produce an infinity, but only for a
  nonzero numerator, and here the numerator is a product of marginals of
  the zero denominator marginal, hence 0: see `NXZ_le_NZ`.)  The scipy
  chisquare call is represented symbolically by the statistic and the
  degrees of freedom it receives, which is all the claims need.
-/

/-- The conditional-independence oracle as seen by the skeleton search:
variable, variable, conditioning list, resulting p-value. -/
abbrev Oracle := ℕ → ℕ → List ℕ → ℚ

/-- Modelled from the spec: the undirected graph capability used by
`estimate_skeleton` (pgmpy.base.UndirectedGraph is outside the estimator
file).  Nodes are kept in a fixed list, edges in a list of pairs. -/
structure UGraph where
  nodes : List ℕ
  adj : List (ℕ × ℕ)
deriving DecidableEq

/-- Modelled from the spec: edge query of the undirected graph, symmetric
in the two endpoints. -/
def hasEdgeB (g : UGraph) (a b : ℕ) : Bool :=
  decide ((a, b) ∈ g.adj ∨ (b, a) ∈ g.adj)

/-- Modelled from the spec: `neighbors` returns a stable snapshot list of
the adjacent nodes, in node-list order. -/
def nbrs (g : UGraph) (n : ℕ) : List ℕ :=
  g.nodes.filter (fun m => hasEdgeB g n m)

/-- Modelled from the spec: `remove_edge` deletes the undirected edge
between the two endpoints. -/
def removeEdge (g : UGraph) (a b : ℕ) : UGraph :=
  ⟨g.nodes, g.adj.filter (fun e => decide (e ≠ (a, b) ∧ e ≠ (b, a)))⟩

/-- All unordered pairs of a node list, in the order produced by
itertools.combinations(nodes, 2). -/
def combin2 : List ℕ → List (ℕ × ℕ)
  | [] => []
  | x :: xs => xs.map (fun y => (x, y)) ++ combin2 xs

/-- The initial complete graph built by `UndirectedGraph(combinations(nodes, 2))`. -/
def completeUGraph (nodes : List ℕ) : UGraph :=
  ⟨nodes, combin2 nodes⟩

/-- All size-k sublists of a list, in itertools.combinations enumeration
order (the canonical order fixed by this development for the neighbour
set iterated at source line 211). -/
def combinations : List ℕ → ℕ → List (List ℕ)
  | _, 0 => [[]]
  | [], _ + 1 => []
  | x :: xs, k + 1 => (combinations xs k).map (fun c => x :: c) ++ combinations xs (k + 1)

/-- The frozenset key used for the separating-set dictionary: an
unordered pair normalised as (min, max). -/
def pkey (a b : ℕ) : ℕ × ℕ := (min a b, max a b)

/-- Ghost record of one edge removal inside `estimate_skeleton`: the node
and neighbour roles of the call, the conditioning-set size, the list of
other current neighbours of the node at that moment, and the recorded
separating subset. -/
structure RemEvent where
  node : ℕ
  nbr : ℕ
  k : ℕ
  others : List ℕ
  subset : List ℕ
deriving DecidableEq

/-- Working state of `estimate_skeleton`: the graph, the separating-set
dictionary (as an association list, most recent entry first) and the
ghost removal log. -/
structure SkelState where
  g : UGraph
  seps : List ((ℕ × ℕ) × List ℕ)
  log : List RemEvent
deriving DecidableEq

/-- Source line 212: the test passes when the p-value is at least the
threshold. -/
def passB (test : Oracle) (p : ℚ) (a b : ℕ) (s : List ℕ) : Bool :=
  decide (p ≤ test a b s)

/-- Source line 211: the other current neighbours of `node`, with
`nbr` removed. -/
def otherNbrs (g : UGraph) (node nbr : ℕ) : List ℕ :=
  (nbrs g node).filter (fun m => decide (m ≠ nbr))

/-- Source lines 211-216: try the size-k subsets of the other current
neighbours in enumeration order; on the first passing subset record it,
remove the edge and stop. -/
def processNeighbor (test : Oracle) (p : ℚ) (k node : ℕ) (st : SkelState) (nbr : ℕ) :
    SkelState :=
  match (combinations (otherNbrs st.g node nbr) k).find? (passB test p node nbr) with
  | some s =>
      ⟨removeEdge st.g node nbr, (pkey node nbr, s) :: st.seps,
        st.log ++ [⟨node, nbr, k, otherNbrs st.g node nbr, s⟩]⟩
  | none => st

/-- Source line 208: iterate over a snapshot of the neighbours of `node`. -/
def processNode (test : Oracle) (p : ℚ) (k : ℕ) (st : SkelState) (node : ℕ) : SkelState :=
  (nbrs st.g node).foldl (processNeighbor test p k node) st

/-- Source line 207: one round of the outer loop at conditioning-set
size k. -/
def skelPass (test : Oracle) (p : ℚ) (nodes : List ℕ) (k : ℕ) (st : SkelState) : SkelState :=
  nodes.foldl (fun st node => processNode test p k st node) st

/-- Source line 206: the while guard
`not all(len(graph.neighbors(node)) < lim_neighbors for node in nodes)`. -/
def degGuard (nodes : List ℕ) (g : UGraph) (lim : ℕ) : Bool :=
  nodes.any (fun n => decide (lim ≤ (nbrs g n).length))

/-- The outer while loop of `estimate_skeleton`, with an explicit fuel
parameter.  The boolean result records whether the loop exited through
its guard (`skelLoop_flag` below shows the fuel used by
`estimate_skeleton` always suffices). -/
def skelLoop (test : Oracle) (p : ℚ) (nodes : List ℕ) :
    ℕ → ℕ → SkelState → SkelState × Bool
  | 0, _, st => (st, false)
  | f + 1, lim, st =>
      if degGuard nodes st.g lim then
        skelLoop test p nodes f (lim + 1) (skelPass test p nodes lim st)
      else (st, true)

/-- Source lines 202-219: `estimate_skeleton`.  Starts from the complete
graph, empty dictionary and empty ghost log. -/
def estimate_skeleton (test : Oracle) (p : ℚ) (nodes : List ℕ) : SkelState :=
  (skelLoop test p nodes (nodes.length + 1) 0 ⟨completeUGraph nodes, [], []⟩).1

/-- Modelled from the spec: the directed graph capability used by
`estimate` (a PDAG whose bidirected edges are stored as two directed
edges). -/
structure PDag where
  nodes : List ℕ
  edges : List (ℕ × ℕ)
deriving DecidableEq

/-- Source line 94: `skel.to_directed()` puts both directions of every
undirected edge into the PDAG. -/
def toDirected (g : UGraph) : PDag :=
  ⟨g.nodes, g.adj.foldr (fun e acc => e :: (e.2, e.1) :: acc) []⟩

/-- Modelled from the spec: `remove_edges_from` deletes the listed
directed edges, silently ignoring absent ones. -/
def removeEdgesFrom (p : PDag) (l : List (ℕ × ℕ)) : PDag :=
  ⟨p.nodes, p.edges.filter (fun e => decide (e ∉ l))⟩

/-- Source line 102: `seperating_sets[frozenset((X, Y))]`.  For every
pair reaching this lookup inside `estimate` the key is present
(claim C2 below); the default covers the total function only. -/
def sepLookup (seps : List ((ℕ × ℕ) × List ℕ)) (a b : ℕ) : List ℕ :=
  match seps.find? (fun e => decide (e.1 = pkey a b)) with
  | some e => e.2
  | none => []

/-- Source lines 99-103, the collider-detection body for one pair (X, Y).
Line 101 of the source intersects the neighbour set of X with itself (a
slip for the neighbours of Y), so Z ranges over all neighbours of X. -/
def colliderBody (skel : UGraph) (seps : List ((ℕ × ℕ) × List ℕ)) (pd : PDag)
    (xy : ℕ × ℕ) : PDag :=
  if hasEdgeB skel xy.1 xy.2 then pd
  else
    (nbrs skel xy.1).foldl
      (fun pd2 z =>
        if decide (z ∈ sepLookup seps xy.1 xy.2) then pd2
        else removeEdgesFrom pd2 [(z, xy.1), (z, xy.2)])
      pd

/-- A Python for loop over a single-use iterator: it folds over whatever
elements remain and leaves the iterator exhausted. -/
def pyForAll (it : List (ℕ × ℕ)) (body : PDag → (ℕ × ℕ) → PDag) (pd : PDag) :
    PDag × List (ℕ × ℕ) :=
  (it.foldl body pd, [])

/-- Successor list of a node in the PDAG. -/
def succs (p : PDag) (a : ℕ) : List ℕ :=
  p.nodes.filter (fun b => decide ((a, b) ∈ p.edges))

/-- Predecessor list of a node in the PDAG. -/
def preds (p : PDag) (a : ℕ) : List ℕ :=
  p.nodes.filter (fun b => decide ((b, a) ∈ p.edges))

/-- Source lines 110-113 (propagation rule 2 of the while loop).  The
body computes the Z set and then calls `pdag.remove(Y, Z)`, a method the
graph class does not define, so finding any Z raises; `none` models the
raised exception.  Inside `estimate` this body only ever runs on an
exhausted iterator, hence never executes. -/
def rule1Body (pd : PDag) (xy : ℕ × ℕ) : Option PDag :=
  let zset := (succs pd xy.1).filter (fun z =>
    decide (z ∉ preds pd xy.1 ∧ z ∈ succs pd xy.2 ∧ z ∈ preds pd xy.2))
  if zset.isEmpty then some pd else none

/-- Source lines 116-124 (propagation rule 3 of the while loop).  The
body immediately evaluates `nx.all_simple_paths`, but the name `nx` is
never imported, so any execution raises; `none` models the raised
exception. -/
def rule2Body (_pd : PDag) (_xy : ℕ × ℕ) : Option PDag :=
  none

/-- Source lines 127-133 (propagation rule 4 of the while loop).  As in
`rule1Body`, finding any W calls the undefined method `pdag.remove`, so
it raises. -/
def rule3Body (pd : PDag) (xy : ℕ × ℕ) : Option PDag :=
  let zset := (succs pd xy.1).filter (fun z =>
    decide (z ∈ preds pd xy.1 ∧ z ∈ succs pd xy.2 ∧ z ∈ preds pd xy.2))
  let found := zset.any (fun z =>
    !(((succs pd xy.1).filter (fun w =>
        decide (w ∉ preds pd xy.1 ∧ w ∈ succs pd xy.2 ∧ w ∉ preds pd xy.2 ∧
          w ∈ succs pd z ∧ w ∈ preds pd z))).isEmpty))
  if found then none else some pd

/-- A Python for loop over a single-use iterator with a body that can
raise. -/
def pyForAllM (it : List (ℕ × ℕ)) (body : PDag → (ℕ × ℕ) → Option PDag) (pd : PDag) :
    Option (PDag × List (ℕ × ℕ)) :=
  (it.foldlM body pd).map (fun r => (r, []))

/-- Source lines 105-135: the orientation fixed-point loop.  The three
rule loops share the single-use iterator `it`; the loop repeats while
the edge count strictly decreased.  The fuel bounds the number of
passes (each continuing pass strictly decreases the edge count, so the
edge count plus one suffices). -/
def whileLoop : ℕ → List (ℕ × ℕ) → PDag → Option PDag
  | 0, _, _ => none
  | f + 1, it, pd => do
      let n := pd.edges.length
      let s1 ← pyForAllM it rule1Body pd
      let s2 ← pyForAllM s1.2 rule2Body s1.1
      let s3 ← pyForAllM s2.2 rule3Body s2.1
      if n > s3.1.edges.length then whileLoop f s3.2 s3.1 else pure s3.1

/-- Source lines 94-137: the orientation phase of `estimate`.  The
iterator `node_pairs` is created once, fully consumed by the collider
loop, and the exhausted remainder is what the while loop iterates. -/
def estimateOrient (g : UGraph) (seps : List ((ℕ × ℕ) × List ℕ)) : Option PDag :=
  let pdag0 := toDirected g
  let r := pyForAll (combin2 pdag0.nodes) (colliderBody g seps) pdag0
  whileLoop (r.1.edges.length + 1) r.2 r.1

/-- Source lines 93-137: `estimate`. -/
def estimate (test : Oracle) (p : ℚ) (nodes : List ℕ) : Option PDag :=
  estimateOrient (estimate_skeleton test p nodes).g (estimate_skeleton test p nodes).seps

/-- The PDAG obtained from the estimated skeleton by making every edge
bidirected and applying collider detection once (no propagation
rules). -/
def colliderOnlyPdag (test : Oracle) (p : ℚ) (nodes : List ℕ) : PDag :=
  (pyForAll (combin2 (toDirected (estimate_skeleton test p nodes).g).nodes)
    (colliderBody (estimate_skeleton test p nodes).g (estimate_skeleton test p nodes).seps)
    (toDirected (estimate_skeleton test p nodes).g)).1

/-- An unshielded triple x - z - y of a skeleton: x and y distinct and
non-adjacent, z adjacent to both. -/
def unshieldedTriple (g : UGraph) (x z y : ℕ) : Prop :=
  x ≠ y ∧ hasEdgeB g x y = false ∧ hasEdgeB g x z = true ∧ hasEdgeB g z y = true

instance (g : UGraph) (x z y : ℕ) : Decidable (unshieldedTriple g x z y) := by
  unfold unshieldedTriple; infer_instance

/-- A data row: an assignment of a value to every variable index.
Modelled from the spec data model (the dataset handle lives in
StructureEstimator, outside the estimator file). -/
abbrev Row := ℕ → ℕ

/-- A pandas float as far as this code exercises it: an exact rational
or NaN. -/
inductive PyF where
  | nan : PyF
  | fin : ℚ → PyF
deriving DecidableEq, Repr

/-- The Python comparison `e == 0`: NaN compares unequal to 0. -/
def pyEqZero : PyF → Bool
  | .nan => false
  | .fin q => decide (q = 0)

/-- Whether a row takes the given values on the given variables. -/
def rowMatches (r : Row) (vars vals : List ℕ) : Bool :=
  (vars.zip vals).all (fun q => decide (r q.1 = q.2))

/-- Source lines 293-299: the reindexed joint state-count table.  The
cell for (x, y, zs) counts the rows agreeing with all three; reindexing
to the declared domains and fillna(0) make this a total count over the
full domain grid. -/
def cellN (data : List Row) (X Y : ℕ) (Zs : List ℕ) (x y : ℕ) (zs : List ℕ) : ℕ :=
  data.countP (fun r => decide (r X = x) && decide (r Y = y) && rowMatches r Zs zs)

/-- Source line 304 (and 307): the (X, Zs) marginal, Y summed out over
its declared domain. -/
def NXZ (sn : ℕ → List ℕ) (data : List Row) (X Y : ℕ) (Zs : List ℕ) (x : ℕ)
    (zs : List ℕ) : ℕ :=
  ((sn Y).map (fun y => cellN data X Y Zs x y zs)).sum

/-- Source line 305 (and 308): the (Y, Zs) marginal, X summed out over
its declared domain. -/
def NYZ (sn : ℕ → List ℕ) (data : List Row) (X Y : ℕ) (Zs : List ℕ) (y : ℕ)
    (zs : List ℕ) : ℕ :=
  ((sn X).map (fun x => cellN data X Y Zs x y zs)).sum

/-- Source line 309: the Zs marginal, computed as the sum of the (Y, Zs)
marginal over the declared Y domain. -/
def NZ (sn : ℕ → List ℕ) (data : List Row) (X Y : ℕ) (Zs : List ℕ) (zs : List ℕ) : ℕ :=
  ((sn Y).map (fun y => NYZ sn data X Y Zs y zs)).sum

/-- Source lines 311-322: the expected count under conditional
independence, `XZ * YZ / Z` per cell.  When the Z marginal is 0 the
numerator is also 0 (`NXZ_le_NZ` below), and float 0/0 is NaN. -/
def expCell (sn : ℕ → List ℕ) (data : List Row) (X Y : ℕ) (Zs : List ℕ) (x y : ℕ)
    (zs : List ℕ) : PyF :=
  if NZ sn data X Y Zs zs = 0 then .nan
  else .fin ((NXZ sn data X Y Zs x zs * NYZ sn data X Y Zs y zs : ℚ) / NZ sn data X Y Zs zs)

/-- All combinations of declared values of the conditioning variables,
in the order of pandas MultiIndex.from_product. -/
def zCombos (sn : ℕ → List ℕ) : List ℕ → List (List ℕ)
  | [] => [[]]
  | Z :: Zs => (sn Z).flatMap (fun v => (zCombos sn Zs).map (fun t => v :: t))

/-- Source lines 324-325: the flattened (observed, expected) cell pairs,
row-major over the declared X domain, then the Y domain, then the Z
combinations. -/
def cellList (sn : ℕ → List ℕ) (data : List Row) (X Y : ℕ) (Zs : List ℕ) :
    List (ℕ × PyF) :=
  (sn X).flatMap (fun x =>
    (sn Y).flatMap (fun y =>
      (zCombos sn Zs).map (fun zs =>
        (cellN data X Y Zs x y zs, expCell sn data X Y Zs x y zs))))

/-- Source line 328: drop the cell pairs whose expected value compares
equal to 0 (NaN does not, so NaN cells are kept). -/
def keptCells (sn : ℕ → List ℕ) (data : List Row) (X Y : ℕ) (Zs : List ℕ) :
    List (ℕ × PyF) :=
  (cellList sn data X Y Zs).filter (fun c => !pyEqZero c.2)

/-- Float addition as exercised here: NaN absorbs. -/
def pyAdd : PyF → PyF → PyF
  | .nan, _ => .nan
  | _, .nan => .nan
  | .fin a, .fin b => .fin (a + b)

/-- One chi-square term (o - e)^2 / e.  Only applied to kept cells, whose
finite expected values are nonzero. -/
def pyTerm (o : ℕ) (e : PyF) : PyF :=
  match e with
  | .nan => .nan
  | .fin q => .fin (((o : ℚ) - q) ^ 2 / q)

/-- The Pearson chi-square statistic scipy.stats.chisquare computes over
the kept cells. -/
def chiStat (cells : List (ℕ × PyF)) : PyF :=
  cells.foldl (fun acc c => pyAdd acc (pyTerm c.1 c.2)) (.fin 0)

/-- The value scipy.stats.chisquare returns, represented symbolically by
the statistic and the degrees of freedom handed to the chi-square
survival function (a NaN statistic yields a NaN p-value). -/
inductive PValue where
  | chiSf : PyF → ℕ → PValue
deriving DecidableEq

/-- The exceptions the embedded test can raise.  `unpackEmpty` is the
ValueError raised by unpacking `zip(*[])` at source line 328 when every
cell was dropped; `invalidArgument` is the rejection the spec asks for
on a malformed conditioning set (the source never raises it). -/
inductive PyError where
  | unpackEmpty : PyError
  | invalidArgument : PyError
deriving DecidableEq

deriving instance DecidableEq for Except

/-- Source line 288: the warning record, carrying the variables and the
required versus available sample counts named in the message. -/
structure SampleWarning where
  x : ℕ
  y : ℕ
  zs : List ℕ
  required : ℤ
  present : ℕ
deriving DecidableEq

/-- Source lines 284-286: the heuristic parameter count
`(len(sn[X]) - 1) * (len(sn[Y]) - 1) * prod(len(sn[Z]))` (integer
arithmetic; the product over an empty list is 1, as np.prod gives). -/
def numParams (sn : ℕ → List ℕ) (X Y : ℕ) (Zs : List ℕ) : ℤ :=
  (((sn X).length : ℤ) - 1) * (((sn Y).length : ℤ) - 1) *
    (Zs.map (fun Z => ((sn Z).length : ℤ))).prod

/-- Source lines 221-332: `test_conditional_independence`.  Returns the
list of emitted warnings together with either the raised exception or
the chisquare result.  The conditioning set is received as a list
(lines 276-279 only coerce the argument to a list; no validation is
performed). -/
def test_conditional_independence (sn : ℕ → List ℕ) (data : List Row) (X Y : ℕ)
    (Zs : List ℕ) : List SampleWarning × Except PyError PValue :=
  let warns :=
    if (data.length : ℤ) < numParams sn X Y Zs then
      [⟨X, Y, Zs, numParams sn X Y Zs, data.length⟩]
    else []
  let kept := keptCells sn data X Y Zs
  if kept.isEmpty then (warns, .error .unpackEmpty)
  else (warns, .ok (.chiSf (chiStat kept) (kept.length - 1)))

/-- Concrete oracle for the orientation counterexamples: exactly three
pair/subset combinations test independent. -/
def oracleEx : Oracle := fun a b s =>
  if (pkey a b = (0, 3) ∧ s = [1]) ∨ (pkey a b = (2, 3) ∧ s = [0]) ∨
     (pkey a b = (1, 3) ∧ s = [0, 2]) then 1 else 0

/-- The skeleton estimated from `oracleEx` at threshold 1/2 on four
nodes: the triangle 0-1, 0-2, 1-2 with node 3 isolated. -/
def skelEx : SkelState := estimate_skeleton oracleEx (1 / 2) [0, 1, 2, 3]

/-- The edge list of the PDAG `estimate` returns on `oracleEx`. -/
def pdagEx : List (ℕ × ℕ) :=
  match estimate oracleEx (1 / 2) [0, 1, 2, 3] with
  | some p => p.edges
  | none => []

/-- Binary declared domains for every variable. -/
def snBin : ℕ → List ℕ := fun _ => [0, 1]

/-- Singleton declared domains for every variable. -/
def snOne : ℕ → List ℕ := fun _ => [0]

/-- One row, constant 0. -/
def dataOne : List Row := [fun _ => 0]

/-- Two rows over binary X (index 0), Y (index 1), Z (index 2); Z is
constantly 0, so the declared state Z = 1 never occurs in the data. -/
def dataZeroZ : List Row :=
  [fun _ => 0, fun v => if v = 2 then 0 else 1]

/-- Two rows over binary X (index 0) and Y (index 1): (0, 0) and (1, 1). -/
def dataDiag : List Row :=
  [fun _ => 0, fun _ => 1]

/-- The empty dataset. -/
def dataNil : List Row := []

/-- The unordered-pair keys of the ghost removal log, in removal order. -/
def sepKeysLog (st : SkelState) : List (ℕ × ℕ) :=
  st.log.map (fun e => pkey e.node e.nbr)

/-- The loop invariant of `estimate_skeleton`: the node list is fixed,
the separating-set dictionary mirrors the removal log, no pair is
removed twice, edges stay inside the initial complete graph, a pair is
non-adjacent exactly when it was removed, and every logged subset is
the first passing one of its enumeration. -/
def SkelInv (test : Oracle) (p : ℚ) (nodes : List ℕ) (st : SkelState) : Prop :=
  st.g.nodes = nodes ∧
  st.seps = (st.log.map (fun e => (pkey e.node e.nbr, e.subset))).reverse ∧
  (sepKeysLog st).Nodup ∧
  (∀ a b, hasEdgeB st.g a b = true → hasEdgeB (completeUGraph nodes) a b = true) ∧
  (∀ a b, hasEdgeB (completeUGraph nodes) a b = true →
    (hasEdgeB st.g a b = false ↔ pkey a b ∈ sepKeysLog st)) ∧
  (∀ e ∈ st.log,
    (combinations e.others e.k).find? (passB test p e.node e.nbr) = some e.subset)

/-- The separating-set recording discipline (claim C2), stated for the
result of `estimate_skeleton`: every logged removal used a passing
subset that is the first passing subset of the size-k enumeration over
the other current neighbours of the node; the dictionary consists of
exactly the logged entries, each unordered pair at most once; and a
pair of the initial complete graph is non-adjacent in the result
exactly when the dictionary holds a key for it. -/
def C2Spec (test : Oracle) (p : ℚ) (nodes : List ℕ) : Prop :=
  (∀ e ∈ (estimate_skeleton test p nodes).log,
    p ≤ test e.node e.nbr e.subset ∧
    (combinations e.others e.k).find? (passB test p e.node e.nbr) = some e.subset ∧
    ∃ l₁ l₂, combinations e.others e.k = l₁ ++ e.subset :: l₂ ∧
      ∀ s ∈ l₁, ¬ p ≤ test e.node e.nbr s) ∧
  (estimate_skeleton test p nodes).seps =
    ((estimate_skeleton test p nodes).log.map
      (fun e => (pkey e.node e.nbr, e.subset))).reverse ∧
  ((estimate_skeleton test p nodes).seps.map (fun e => e.1)).Nodup ∧
  (∀ a b, hasEdgeB (completeUGraph nodes) a b = true →
    (hasEdgeB (estimate_skeleton test p nodes).g a b = false ↔
      pkey a b ∈ (estimate_skeleton test p nodes).seps.map (fun e => e.1)))

/-! ### Helper lemmas -/

theorem pkey_eq_iff (a b u v : ℕ) :
    pkey a b = pkey u v ↔ (a = u ∧ b = v) ∨ (a = v ∧ b = u) := by
  constructor
  · intro h
    simp only [pkey, Prod.mk.injEq] at h
    omega
  · rintro (⟨rfl, rfl⟩ | ⟨rfl, rfl⟩)
    · rfl
    · simp [pkey, Prod.ext_iff, min_comm, max_comm]

theorem hasEdgeB_removeEdge_true (g : UGraph) (u v a b : ℕ) :
    hasEdgeB (removeEdge g u v) a b = true ↔
      hasEdgeB g a b = true ∧ pkey a b ≠ pkey u v := by
  simp only [hasEdgeB, removeEdge, decide_eq_true_eq, List.mem_filter]
  constructor
  · rintro (⟨h1, h2⟩ | ⟨h1, h2⟩)
    · refine ⟨Or.inl h1, fun he => ?_⟩
      rcases (pkey_eq_iff a b u v).1 he with ⟨rfl, rfl⟩ | ⟨rfl, rfl⟩
      · exact h2.1 rfl
      · exact h2.2 rfl
    · refine ⟨Or.inr h1, fun he => ?_⟩
      rcases (pkey_eq_iff a b u v).1 he with ⟨rfl, rfl⟩ | ⟨rfl, rfl⟩
      · exact h2.2 rfl
      · exact h2.1 rfl
  · rintro ⟨h1 | h1, h2⟩
    · refine Or.inl ⟨h1, ?_, ?_⟩
      · intro he
        exact h2 ((pkey_eq_iff a b u v).2
          (Or.inl ⟨congrArg Prod.fst he, congrArg Prod.snd he⟩))
      · intro he
        exact h2 ((pkey_eq_iff a b u v).2
          (Or.inr ⟨congrArg Prod.fst he, congrArg Prod.snd he⟩))
    · refine Or.inr ⟨h1, ?_, ?_⟩
      · intro he
        exact h2 ((pkey_eq_iff a b u v).2
          (Or.inr ⟨congrArg Prod.snd he, congrArg Prod.fst he⟩))
      · intro he
        exact h2 ((pkey_eq_iff a b u v).2
          (Or.inl ⟨congrArg Prod.snd he, congrArg Prod.fst he⟩))

theorem hasEdgeB_mono {g h : UGraph} (hs : g.adj ⊆ h.adj) {a b : ℕ}
    (hab : hasEdgeB g a b = true) : hasEdgeB h a b = true := by
  simp only [hasEdgeB, decide_eq_true_eq] at hab ⊢
  rcases hab with h1 | h1
  · exact Or.inl (hs h1)
  · exact Or.inr (hs h1)

theorem combin2_irrefl (l : List ℕ) (h : l.Nodup) (a : ℕ) : (a, a) ∉ combin2 l := by
  induction l with
  | nil => simp [combin2]
  | cons x xs ih =>
    intro hmem
    simp only [combin2, List.mem_append, List.mem_map] at hmem
    rcases hmem with ⟨y, hy, he⟩ | hmem
    · have hx : x = a := congrArg Prod.fst he
      have hya : y = a := congrArg Prod.snd he
      subst hx; subst hya
      exact (List.nodup_cons.1 h).1 hy
    · exact ih (List.nodup_cons.1 h).2 hmem

theorem filter_length_lt {α : Type} (l : List α) (q : α → Bool) (x : α) (hx : x ∈ l)
    (hqx : q x = false) : (l.filter q).length < l.length := by
  induction l with
  | nil => cases hx
  | cons y ys ih =>
    rcases List.mem_cons.1 hx with rfl | hx₂
    · rw [List.filter_cons_of_neg (by simp [hqx])]
      exact Nat.lt_succ_of_le (List.length_filter_le _ _)
    · by_cases hy : q y = true
      · rw [List.filter_cons_of_pos hy]
        exact Nat.succ_lt_succ (ih hx₂)
      · rw [List.filter_cons_of_neg hy]
        exact Nat.lt_succ_of_le (Nat.le_of_lt (ih hx₂))

theorem find?_eq_some_split {α : Type} (q : α → Bool) :
    ∀ (l : List α) (a : α), l.find? q = some a →
      q a = true ∧ ∃ l₁ l₂, l = l₁ ++ a :: l₂ ∧ ∀ x ∈ l₁, q x = false := by
  intro l
  induction l with
  | nil => intro a h; cases h
  | cons x xs ih =>
    intro a h
    by_cases hx : q x = true
    · rw [List.find?_cons_of_pos _ hx] at h
      cases h
      exact ⟨hx, [], xs, rfl, by simp⟩
    · have hx₂ : q x = false := by simpa using hx
      rw [List.find?_cons_of_neg _ (by simp [hx₂])] at h
      obtain ⟨hqa, l₁, l₂, hsplit, hall⟩ := ih a h
      refine ⟨hqa, x :: l₁, l₂, by rw [hsplit]; rfl, ?_⟩
      intro y hy
      rcases List.mem_cons.1 hy with rfl | hy₂
      · exact hx₂
      · exact hall y hy₂

/-! ### State lemmas for the skeleton search -/

theorem processNeighbor_nodes (test : Oracle) (p : ℚ) (k node : ℕ) (st : SkelState)
    (nbr : ℕ) : (processNeighbor test p k node st nbr).g.nodes = st.g.nodes := by
  unfold processNeighbor
  split <;> simp [removeEdge]

theorem processNeighbor_adj_subset (test : Oracle) (p : ℚ) (k node : ℕ) (st : SkelState)
    (nbr : ℕ) : (processNeighbor test p k node st nbr).g.adj ⊆ st.g.adj := by
  unfold processNeighbor
  split
  · intro x hx
    exact (List.mem_filter.1 hx).1
  · exact fun x hx => hx

theorem foldNbrs_nodes (test : Oracle) (p : ℚ) (k node : ℕ) :
    ∀ (l : List ℕ) (st : SkelState),
      ((l.foldl (processNeighbor test p k node) st).g.nodes = st.g.nodes) := by
  intro l
  induction l with
  | nil => intro st; rfl
  | cons m ms ih =>
    intro st
    rw [List.foldl_cons, ih, processNeighbor_nodes]

theorem foldNbrs_adj_subset (test : Oracle) (p : ℚ) (k node : ℕ) :
    ∀ (l : List ℕ) (st : SkelState),
      ((l.foldl (processNeighbor test p k node) st).g.adj ⊆ st.g.adj) := by
  intro l
  induction l with
  | nil => intro st; exact fun x hx => hx
  | cons m ms ih =>
    intro st
    rw [List.foldl_cons]
    exact fun x hx => processNeighbor_adj_subset test p k node st m (ih _ hx)

theorem processNode_nodes (test : Oracle) (p : ℚ) (k : ℕ) (st : SkelState) (node : ℕ) :
    (processNode test p k st node).g.nodes = st.g.nodes :=
  foldNbrs_nodes test p k node _ st

theorem processNode_adj_subset (test : Oracle) (p : ℚ) (k : ℕ) (st : SkelState) (node : ℕ) :
    (processNode test p k st node).g.adj ⊆ st.g.adj :=
  foldNbrs_adj_subset test p k node _ st

theorem skelPass_nodes (test : Oracle) (p : ℚ) (nodes : List ℕ) (k : ℕ) (st : SkelState) :
    (skelPass test p nodes k st).g.nodes = st.g.nodes := by
  unfold skelPass
  induction nodes generalizing st with
  | nil => rfl
  | cons n ns ih =>
    rw [List.foldl_cons, ih, processNode_nodes]

theorem skelPass_adj_subset (test : Oracle) (p : ℚ) (nodes : List ℕ) (k : ℕ)
    (st : SkelState) : (skelPass test p nodes k st).g.adj ⊆ st.g.adj := by
  unfold skelPass
  induction nodes generalizing st with
  | nil => exact fun x hx => hx
  | cons n ns ih =>
    rw [List.foldl_cons]
    exact fun x hx => processNode_adj_subset test p k st n (ih _ hx)

theorem skelLoop_adj_subset (test : Oracle) (p : ℚ) (nodes : List ℕ) :
    ∀ (f lim : ℕ) (st : SkelState),
      ((skelLoop test p nodes f lim st).1).g.adj ⊆ st.g.adj := by
  intro f
  induction f with
  | zero => intro lim st; exact fun x hx => hx
  | succ f ih =>
    intro lim st
    unfold skelLoop
    split
    · exact fun x hx => skelPass_adj_subset test p nodes lim st (ih _ _ hx)
    · exact fun x hx => hx

theorem skelInv_init (test : Oracle) (p : ℚ) (nodes : List ℕ) :
    SkelInv test p nodes ⟨completeUGraph nodes, [], []⟩ := by
  refine ⟨rfl, rfl, List.nodup_nil, fun a b h => h, ?_, by simp⟩
  intro a b hcomp
  constructor
  · intro hfalse
    rw [hcomp] at hfalse
    cases hfalse
  · intro hmem
    simp [sepKeysLog] at hmem

theorem foldNbrs_inv (test : Oracle) (p : ℚ) (nodes : List ℕ) (k node : ℕ) :
    ∀ (l : List ℕ) (st : SkelState), SkelInv test p nodes st →
      l.Nodup → (∀ m ∈ l, m ≠ node) → (∀ m ∈ l, hasEdgeB st.g node m = true) →
      SkelInv test p nodes (l.foldl (processNeighbor test p k node) st) := by
  intro l
  induction l with
  | nil => intro st h _ _ _; exact h
  | cons m ms ih =>
    intro st hInv hnd hne hedge
    rw [List.foldl_cons]
    rcases hpn : (combinations (otherNbrs st.g node m) k).find? (passB test p node m)
      with _ | s
    · have hst : processNeighbor test p k node st m = st := by
        unfold processNeighbor
        rw [hpn]
      rw [hst]
      refine ih st hInv (List.nodup_cons.1 hnd).2 ?_ ?_
      · exact fun x hx => hne x (List.mem_cons_of_mem m hx)
      · exact fun x hx => hedge x (List.mem_cons_of_mem m hx)
    · have hst : processNeighbor test p k node st m =
          ⟨removeEdge st.g node m, (pkey node m, s) :: st.seps,
            st.log ++ [⟨node, m, k, otherNbrs st.g node m, s⟩]⟩ := by
        unfold processNeighbor
        rw [hpn]
      rw [hst]
      obtain ⟨hn, hsep, hnd2, hsub, hiff, hlog⟩ := hInv
      have hedge_nm : hasEdgeB st.g node m = true := hedge m (List.mem_cons_self m ms)
      have hm_ne : m ≠ node := hne m (List.mem_cons_self m ms)
      have hkey_not : pkey node m ∉ sepKeysLog st := by
        intro hmem
        have hfe := (hiff node m (hsub node m hedge_nm)).2 hmem
        rw [hedge_nm] at hfe
        cases hfe
      refine ih _ ⟨?_, ?_, ?_, ?_, ?_, ?_⟩ (List.nodup_cons.1 hnd).2 ?_ ?_
      · simpa [removeEdge] using hn
      · simp [sepKeysLog, hsep, List.map_append, List.reverse_append]
      · show (List.map _ (st.log ++ [_])).Nodup
        rw [List.map_append]
        rw [List.nodup_append]
        refine ⟨hnd2, List.nodup_singleton _, ?_⟩
        intro x hx hx2
        simp only [List.map_cons, List.map_nil, List.mem_singleton] at hx2
        subst hx2
        exact hkey_not hx
      · intro a b hab
        exact hsub a b ((hasEdgeB_removeEdge_true st.g node m a b).1 hab).1
      · intro a b hcomp
        show hasEdgeB (removeEdge st.g node m) a b = false ↔
          pkey a b ∈ List.map _ (st.log ++ [_])
        rw [List.map_append]
        constructor
        · intro hfalse
          by_cases hpk : pkey a b = pkey node m
          · apply List.mem_append_right
            simp [hpk]
          · have hstf : hasEdgeB st.g a b = false := by
              cases h : hasEdgeB st.g a b
              · rfl
              · exfalso
                have htrue := (hasEdgeB_removeEdge_true st.g node m a b).2 ⟨h, hpk⟩
                rw [hfalse] at htrue
                cases htrue
            exact List.mem_append_left _ ((hiff a b hcomp).1 hstf)
        · intro hmem
          rcases List.mem_append.1 hmem with hold | hnew
          · have hstf := (hiff a b hcomp).2 hold
            cases h : hasEdgeB (removeEdge st.g node m) a b
            · rfl
            · exfalso
              have := ((hasEdgeB_removeEdge_true st.g node m a b).1 h).1
              rw [hstf] at this
              cases this
          · have hpk : pkey a b = pkey node m := by
              simpa using hnew
            cases h : hasEdgeB (removeEdge st.g node m) a b
            · rfl
            · exact absurd hpk ((hasEdgeB_removeEdge_true st.g node m a b).1 h).2
      · intro e he
        rcases List.mem_append.1 he with h1 | h2
        · exact hlog e h1
        · have he2 : e = ⟨node, m, k, otherNbrs st.g node m, s⟩ := by
            simpa using h2
          subst he2
          exact hpn
      · exact fun x hx => hne x (List.mem_cons_of_mem m hx)
      · intro x hx
        have h1 : hasEdgeB st.g node x = true := hedge x (List.mem_cons_of_mem m hx)
        have hxm : x ≠ m := by
          intro hxe
          subst hxe
          exact (List.nodup_cons.1 hnd).1 hx
        apply (hasEdgeB_removeEdge_true st.g node m node x).2
        refine ⟨h1, fun he => ?_⟩
        rcases (pkey_eq_iff node x node m).1 he with ⟨_, h3⟩ | ⟨h3, _⟩
        · exact hxm h3
        · exact hm_ne h3.symm

theorem processNode_inv (test : Oracle) (p : ℚ) (nodes : List ℕ) (k node : ℕ)
    (st : SkelState) (hInv : SkelInv test p nodes st) (hnd : nodes.Nodup) :
    SkelInv test p nodes (processNode test p k st node) := by
  unfold processNode
  apply foldNbrs_inv test p nodes k node (nbrs st.g node) st hInv
  · unfold nbrs
    rw [hInv.1]
    exact hnd.filter _
  · intro m hm
    have hedge : hasEdgeB st.g node m = true := (List.mem_filter.1 hm).2
    intro he
    subst he
    have hc := hInv.2.2.2.1 m m hedge
    simp only [hasEdgeB, completeUGraph, decide_eq_true_eq, or_self] at hc
    exact combin2_irrefl nodes hnd m hc
  · intro m hm
    exact (List.mem_filter.1 hm).2

theorem skelPass_inv (test : Oracle) (p : ℚ) (nodes : List ℕ) (k : ℕ) :
    ∀ (l : List ℕ) (st : SkelState), SkelInv test p nodes st → nodes.Nodup →
      SkelInv test p nodes (l.foldl (fun st node => processNode test p k st node) st) := by
  intro l
  induction l with
  | nil => intro st h _; exact h
  | cons n ns ih =>
    intro st h hnd
    rw [List.foldl_cons]
    exact ih _ (processNode_inv test p nodes k n st h hnd) hnd

theorem skelLoop_inv (test : Oracle) (p : ℚ) (nodes : List ℕ) :
    ∀ (f lim : ℕ) (st : SkelState), SkelInv test p nodes st → nodes.Nodup →
      SkelInv test p nodes (skelLoop test p nodes f lim st).1 := by
  intro f
  induction f with
  | zero => intro lim st h _; exact h
  | succ f ih =>
    intro lim st h hnd
    unfold skelLoop
    split
    · exact ih _ _ (skelPass_inv test p nodes lim nodes st h hnd) hnd
    · exact h

theorem estimate_skeleton_inv (test : Oracle) (p : ℚ) (nodes : List ℕ)
    (hnd : nodes.Nodup) : SkelInv test p nodes (estimate_skeleton test p nodes) := by
  unfold estimate_skeleton
  exact skelLoop_inv test p nodes _ _ _ (skelInv_init test p nodes) hnd

/-! ### Claim C2 -/

/-- C2: separating-set recording.  Whenever `estimate_skeleton` removes
an edge, the oracle p-value for the recorded subset was at least the
threshold, the recorded subset is the first subset (in the fixed
combinations enumeration order over the other current neighbours of the
node) of the current size k whose test passes, no later subset of that
enumeration is consulted, each unordered pair obtains a dictionary key
exactly once, and the key set equals exactly the set of pairs that are
non-adjacent in the returned skeleton. -/
theorem c2_separating_set_recording (test : Oracle) (p : ℚ) (nodes : List ℕ)
    (hnd : nodes.Nodup) : C2Spec test p nodes := by
  obtain ⟨hn, hsep, hnd2, hsub, hiff, hlog⟩ := estimate_skeleton_inv test p nodes hnd
  refine ⟨?_, hsep, ?_, ?_⟩
  · intro e he
    have hfind := hlog e he
    obtain ⟨hq, l₁, l₂, hsplit, hall⟩ := find?_eq_some_split _ _ _ hfind
    refine ⟨of_decide_eq_true hq, hfind, l₁, l₂, hsplit, ?_⟩
    intro s hs
    exact of_decide_eq_false (hall s hs)
  · rw [hsep, List.map_reverse, List.map_map]
    exact List.nodup_reverse.2 hnd2
  · intro a b hab
    rw [hiff a b hab, hsep, List.map_reverse, List.map_map, List.mem_reverse]
    rfl

/-- C2 witness: the recording discipline at a concrete oracle and node
list. -/
theorem c2_separating_set_recording_witness :
    ([0, 1, 2, 3] : List ℕ).Nodup ∧ C2Spec oracleEx (1 / 2) [0, 1, 2, 3] :=
  ⟨by decide, c2_separating_set_recording oracleEx (1 / 2) [0, 1, 2, 3] (by decide)⟩

/-! ### Claim C3 -/

/-- C3: skeleton edge monotonicity.  During `estimate_skeleton` the edge
set of the working graph only shrinks: a single round at any
conditioning-set size only removes edges, the whole loop only removes
edges (so a removed edge is never re-added), and when the guard holds
the state at the start of round k+1 is the round-k pass of the state at
the start of round k, whose edge set is therefore a subset. -/
theorem c3_skeleton_edge_monotonicity :
    (∀ (test : Oracle) (p : ℚ) (nodes : List ℕ) (k : ℕ) (st : SkelState),
      (skelPass test p nodes k st).g.adj ⊆ st.g.adj) ∧
    (∀ (test : Oracle) (p : ℚ) (nodes : List ℕ) (f lim : ℕ) (st : SkelState),
      ((skelLoop test p nodes f lim st).1).g.adj ⊆ st.g.adj) ∧
    (∀ (test : Oracle) (p : ℚ) (nodes : List ℕ) (f lim : ℕ) (st : SkelState),
      degGuard nodes st.g lim = true →
        skelLoop test p nodes (f + 1) lim st =
          skelLoop test p nodes f (lim + 1) (skelPass test p nodes lim st)) := by
  refine ⟨fun test p nodes k st => skelPass_adj_subset test p nodes k st,
    fun test p nodes f lim st => skelLoop_adj_subset test p nodes f lim st,
    ?_⟩
  intro test p nodes f lim st hguard
  unfold skelLoop
  rw [if_pos hguard]
  cases f <;> rfl

/-- C3 witness: the round-step equation discharged at a concrete state
whose guard holds. -/
theorem c3_skeleton_edge_monotonicity_witness :
    degGuard [0, 1] (completeUGraph [0, 1]) 0 = true ∧
    skelLoop (fun _ _ _ => (0 : ℚ)) 1 [0, 1] 3 0 ⟨completeUGraph [0, 1], [], []⟩ =
      skelLoop (fun _ _ _ => (0 : ℚ)) 1 [0, 1] 2 1
        (skelPass (fun _ _ _ => (0 : ℚ)) 1 [0, 1] 0 ⟨completeUGraph [0, 1], [], []⟩) :=
  ⟨by decide, c3_skeleton_edge_monotonicity.2.2 (fun _ _ _ => (0 : ℚ)) 1 [0, 1] 2 0
    ⟨completeUGraph [0, 1], [], []⟩ (by decide)⟩

/-! ### Claim C4 -/

theorem degGuard_exists (nodes : List ℕ) (g : UGraph) (lim : ℕ)
    (h : degGuard nodes g lim = true) : ∃ n ∈ nodes, lim ≤ (nbrs g n).length := by
  unfold degGuard at h
  rw [List.any_eq_true] at h
  obtain ⟨n, hn, hd⟩ := h
  exact ⟨n, hn, of_decide_eq_true hd⟩

theorem nbrs_length_lt (g : UGraph) (nodes : List ℕ) (hnd : nodes.Nodup)
    (hg : g.nodes = nodes)
    (hsub : ∀ a b, hasEdgeB g a b = true → hasEdgeB (completeUGraph nodes) a b = true)
    (n : ℕ) (hn : n ∈ nodes) : (nbrs g n).length < nodes.length := by
  have hself : hasEdgeB g n n = false := by
    cases h : hasEdgeB g n n
    · rfl
    · exfalso
      have hc := hsub n n h
      simp only [hasEdgeB, completeUGraph, decide_eq_true_eq, or_self] at hc
      exact combin2_irrefl nodes hnd n hc
  unfold nbrs
  rw [hg]
  exact filter_length_lt nodes _ n hn hself

theorem skelLoop_flag (test : Oracle) (p : ℚ) (nodes : List ℕ) (hnd : nodes.Nodup) :
    ∀ (f lim : ℕ) (st : SkelState), st.g.nodes = nodes →
      (∀ a b, hasEdgeB st.g a b = true → hasEdgeB (completeUGraph nodes) a b = true) →
      lim + f = nodes.length + 1 → lim ≤ nodes.length →
      (skelLoop test p nodes f lim st).2 = true := by
  intro f
  induction f with
  | zero =>
    intro lim st _ _ hsum hle
    omega
  | succ f ih =>
    intro lim st hg hsub hsum hle
    unfold skelLoop
    by_cases hguard : degGuard nodes st.g lim = true
    · rw [if_pos hguard]
      obtain ⟨n, hn, hdeg⟩ := degGuard_exists nodes st.g lim hguard
      have hlt := nbrs_length_lt st.g nodes hnd hg hsub n hn
      apply ih
      · rw [skelPass_nodes]
        exact hg
      · intro a b hab
        exact hsub a b (hasEdgeB_mono (skelPass_adj_subset test p nodes lim st) hab)
      · omega
      · omega
    · rw [if_neg hguard]

/-- C4: skeleton termination.  For every finite variable list the outer
loop of `estimate_skeleton` exits through its guard within at most
length-many executed rounds (the fuel length + 1 bounds the guard
evaluations, so at most length rounds run), and it returns immediately,
without touching the state, as soon as every node has fewer current
neighbours than the conditioning-set size. -/
theorem c4_skeleton_termination (test : Oracle) (p : ℚ) (nodes : List ℕ)
    (hnd : nodes.Nodup) :
    (skelLoop test p nodes (nodes.length + 1) 0 ⟨completeUGraph nodes, [], []⟩).2 = true ∧
    (∀ (f lim : ℕ) (st : SkelState), degGuard nodes st.g lim = false →
      skelLoop test p nodes (f + 1) lim st = (st, true)) := by
  constructor
  · exact skelLoop_flag test p nodes hnd (nodes.length + 1) 0 _ rfl (fun a b h => h)
      (by omega) (by omega)
  · intro f lim st h
    unfold skelLoop
    rw [if_neg (by simp [h])]

/-- C4 witness: termination flag at a concrete oracle and node list. -/
theorem c4_skeleton_termination_witness :
    ([0, 1] : List ℕ).Nodup ∧
    (skelLoop (fun _ _ _ => (0 : ℚ)) 1 [0, 1] 3 0 ⟨completeUGraph [0, 1], [], []⟩).2 =
      true :=
  ⟨by decide, (c4_skeleton_termination (fun _ _ _ => (0 : ℚ)) 1 [0, 1] (by decide)).1⟩

/-! ### Claim C10 -/

/-- C10: the `node_pairs` iterator is a single-use iterator fully
consumed by the collider-detection loop, so inside the while loop the
three propagation-rule passes iterate over zero pairs and change
nothing; the loop therefore exits after exactly one pass and `estimate`
returns precisely the PDAG obtained from the skeleton by making every
edge bidirected and applying collider detection once. -/
theorem c10_exhausted_iterator_single_pass (test : Oracle) (p : ℚ) (nodes : List ℕ) :
    estimate test p nodes = some (colliderOnlyPdag test p nodes) := by
  unfold estimate estimateOrient colliderOnlyPdag pyForAll
  simp [whileLoop, pyForAllM, Nat.lt_irrefl]

/-! ### Claims C1 and C5 -/

/-- C1: the collider-detection step of `estimate` violates the collider
rule.  On the concrete oracle `oracleEx` the estimated skeleton is the
triangle 0-1, 0-2, 1-2 with node 3 isolated, so it contains no
unshielded triple at all; the claim therefore requires the collider
step to remove nothing, yet the returned PDAG is missing the directions
(2, 0) and (1, 2) of skeleton edges (source line 101 intersects the
neighbour set of X with itself instead of the neighbour set of Y, so Z
ranges over all neighbours of X, including non-common ones). -/
theorem c1_collider_detection_code_bug :
    (∀ x ∈ ([0, 1, 2, 3] : List ℕ), ∀ z ∈ ([0, 1, 2, 3] : List ℕ),
      ∀ y ∈ ([0, 1, 2, 3] : List ℕ), ¬ unshieldedTriple skelEx.g x z y) ∧
    hasEdgeB skelEx.g 0 2 = true ∧ (2, 0) ∈ (toDirected skelEx.g).edges ∧
    (2, 0) ∉ pdagEx ∧
    hasEdgeB skelEx.g 1 2 = true ∧ (1, 2) ∈ (toDirected skelEx.g).edges ∧
    (1, 2) ∉ pdagEx := by
  with_unfolding_all decide

/-- C5: orientation rule 2 (avoid cycles) never runs.  On `oracleEx`
the returned PDAG keeps the bidirected edge 0-1 together with the fully
directed path 0 → 2 → 1, although the claim requires the direction
(1, 0) to have been removed; the rule-2 loop iterates over the
exhausted `node_pairs` iterator (and its body references the
unimported name nx), so it removes nothing. -/
theorem c5_rule2_dead_code_bug :
    (0, 1) ∈ pdagEx ∧ (1, 0) ∈ pdagEx ∧
    (0, 2) ∈ pdagEx ∧ (2, 0) ∉ pdagEx ∧
    (2, 1) ∈ pdagEx ∧ (1, 2) ∉ pdagEx := by
  with_unfolding_all decide

/-! ### Lemmas for the independence oracle -/

theorem list_sum_map_add {α : Type} (l : List α) (f g : α → ℕ) :
    (l.map (fun x => f x + g x)).sum = (l.map f).sum + (l.map g).sum := by
  induction l with
  | nil => rfl
  | cons x xs ih =>
    simp only [List.map_cons, List.sum_cons, ih]
    omega

theorem sum_map_comm (l₁ l₂ : List ℕ) (f : ℕ → ℕ → ℕ) :
    (l₁.map (fun a => (l₂.map (fun b => f a b)).sum)).sum =
      (l₂.map (fun b => (l₁.map (fun a => f a b)).sum)).sum := by
  induction l₁ with
  | nil =>
    simp only [List.map_nil, List.sum_nil]
    rw [Eq.comm]
    apply List.sum_eq_zero
    intro x hx
    obtain ⟨b, _, rfl⟩ := List.mem_map.1 hx
    rfl
  | cons a t ih =>
    simp only [List.map_cons, List.sum_cons, ih]
    rw [list_sum_map_add]

theorem NZ_eq_sum_NXZ (sn : ℕ → List ℕ) (data : List Row) (X Y : ℕ) (Zs : List ℕ)
    (zs : List ℕ) :
    NZ sn data X Y Zs zs = ((sn X).map (fun x => NXZ sn data X Y Zs x zs)).sum := by
  unfold NZ NYZ NXZ
  exact sum_map_comm (sn Y) (sn X) (fun y x => cellN data X Y Zs x y zs)

theorem exists_pos_of_sum_pos (l : List ℕ) (f : ℕ → ℕ) (h : 0 < (l.map f).sum) :
    ∃ a ∈ l, 0 < f a := by
  by_contra hc
  push_neg at hc
  have hz : (l.map f).sum = 0 := by
    apply List.sum_eq_zero
    intro x hx
    obtain ⟨a, ha, rfl⟩ := List.mem_map.1 hx
    exact Nat.le_zero.1 (hc a ha)
  omega

theorem zCombos_exists_mem (sn : ℕ → List ℕ) (Zs : List ℕ)
    (h : ∀ Z ∈ Zs, sn Z ≠ []) : ∃ t, t ∈ zCombos sn Zs := by
  induction Zs with
  | nil => exact ⟨[], by simp [zCombos]⟩
  | cons Z Zs ih =>
    obtain ⟨t, ht⟩ := ih (fun W hW => h W (List.mem_cons_of_mem Z hW))
    obtain ⟨v, hv⟩ := List.exists_mem_of_ne_nil _ (h Z (List.mem_cons_self Z Zs))
    refine ⟨v :: t, ?_⟩
    unfold zCombos
    rw [List.mem_flatMap]
    exact ⟨v, hv, List.mem_map.2 ⟨t, ht, rfl⟩⟩

theorem mem_cellList (sn : ℕ → List ℕ) (data : List Row) (X Y : ℕ) (Zs : List ℕ)
    (x y : ℕ) (zs : List ℕ) (hx : x ∈ sn X) (hy : y ∈ sn Y) (hz : zs ∈ zCombos sn Zs) :
    (cellN data X Y Zs x y zs, expCell sn data X Y Zs x y zs) ∈ cellList sn data X Y Zs := by
  unfold cellList
  rw [List.mem_flatMap]
  refine ⟨x, hx, ?_⟩
  rw [List.mem_flatMap]
  exact ⟨y, hy, List.mem_map.2 ⟨zs, hz, rfl⟩⟩

theorem keptCells_ne_nil (sn : ℕ → List ℕ) (data : List Row) (X Y : ℕ) (Zs : List ℕ)
    (hx : sn X ≠ []) (hy : sn Y ≠ []) (hz : ∀ Z ∈ Zs, sn Z ≠ []) :
    keptCells sn data X Y Zs ≠ [] := by
  obtain ⟨zs, hzs⟩ := zCombos_exists_mem sn Zs hz
  by_cases hNZ : NZ sn data X Y Zs zs = 0
  · obtain ⟨x, hxm⟩ := List.exists_mem_of_ne_nil _ hx
    obtain ⟨y, hym⟩ := List.exists_mem_of_ne_nil _ hy
    have hexp : expCell sn data X Y Zs x y zs = .nan := by
      unfold expCell
      rw [if_pos hNZ]
    apply List.ne_nil_of_mem (a := (cellN data X Y Zs x y zs, expCell sn data X Y Zs x y zs))
    refine List.mem_filter.2 ⟨mem_cellList sn data X Y Zs x y zs hxm hym hzs, ?_⟩
    rw [hexp]
    rfl
  · have hpos : 0 < NZ sn data X Y Zs zs := Nat.pos_of_ne_zero hNZ
    have hpos2 := hpos
    rw [NZ_eq_sum_NXZ] at hpos2
    obtain ⟨x, hxm, hx0⟩ := exists_pos_of_sum_pos _ _ hpos2
    obtain ⟨y, hym, hy0⟩ := exists_pos_of_sum_pos _ _ (by
      have := hpos
      unfold NZ at this
      exact this)
    have hq : (0 : ℚ) <
        (NXZ sn data X Y Zs x zs * NYZ sn data X Y Zs y zs : ℚ) / NZ sn data X Y Zs zs := by
      apply div_pos
      · have h1 : (0 : ℚ) < (NXZ sn data X Y Zs x zs : ℚ) := by exact_mod_cast hx0
        have h2 : (0 : ℚ) < (NYZ sn data X Y Zs y zs : ℚ) := by exact_mod_cast hy0
        exact mul_pos h1 h2
      · exact_mod_cast hpos
    have hexp : expCell sn data X Y Zs x y zs =
        .fin ((NXZ sn data X Y Zs x zs * NYZ sn data X Y Zs y zs : ℚ) /
          NZ sn data X Y Zs zs) := by
      unfold expCell
      rw [if_neg hNZ]
    apply List.ne_nil_of_mem (a := (cellN data X Y Zs x y zs, expCell sn data X Y Zs x y zs))
    refine List.mem_filter.2 ⟨mem_cellList sn data X Y Zs x y zs hxm hym hzs, ?_⟩
    rw [hexp]
    simp [pyEqZero, ne_of_gt hq]

/-- Marginal domination: when the Z marginal of a combination is 0,
every (X, Z) marginal over the declared X domain is 0 as well, so the
float division in `expCell` is the 0/0 = NaN case, never a division of
a nonzero numerator by zero. -/
theorem NXZ_le_NZ (sn : ℕ → List ℕ) (data : List Row) (X Y : ℕ) (Zs : List ℕ)
    (x : ℕ) (zs : List ℕ) (hx : x ∈ sn X) :
    NXZ sn data X Y Zs x zs ≤ NZ sn data X Y Zs zs := by
  rw [NZ_eq_sum_NXZ]
  exact List.single_le_sum (fun a _ => Nat.zero_le a) _
    (List.mem_map.2 ⟨x, hx, rfl⟩)

/-! ### Claim C8 -/

/-- C8: insufficient-sample warning.  With nonempty declared domains,
`test_conditional_independence` emits the warning (naming the
variables, the required count and the available count) exactly when the
sample size is below `(len X - 1) * (len Y - 1) * prod (len Z)`, and it
still proceeds and returns a value rather than raising. -/
theorem c8_insufficient_sample_warning (sn : ℕ → List ℕ) (data : List Row) (X Y : ℕ)
    (Zs : List ℕ) (hx : sn X ≠ []) (hy : sn Y ≠ []) (hz : ∀ Z ∈ Zs, sn Z ≠ []) :
    (test_conditional_independence sn data X Y Zs).1 =
      (if (data.length : ℤ) < numParams sn X Y Zs then
        [⟨X, Y, Zs, numParams sn X Y Zs, data.length⟩] else []) ∧
    ∃ v, (test_conditional_independence sn data X Y Zs).2 = Except.ok v := by
  have hk : (keptCells sn data X Y Zs).isEmpty = false := by
    rw [List.isEmpty_eq_false]
    exact keptCells_ne_nil sn data X Y Zs hx hy hz
  constructor
  · simp [test_conditional_independence, hk]
  · refine ⟨PValue.chiSf (chiStat (keptCells sn data X Y Zs))
      ((keptCells sn data X Y Zs).length - 1), ?_⟩
    simp [test_conditional_independence, hk]

/-- C8 witness: on the empty dataset with binary domains the warning
fires (1 sample required, 0 present) and a value is still returned. -/
theorem c8_insufficient_sample_warning_witness :
    (snBin 0 ≠ [] ∧ (dataNil.length : ℤ) < numParams snBin 0 1 []) ∧
    (test_conditional_independence snBin dataNil 0 1 []).1 =
      (if (dataNil.length : ℤ) < numParams snBin 0 1 [] then
        [⟨0, 1, [], numParams snBin 0 1 [], dataNil.length⟩] else []) :=
  ⟨⟨by decide, by decide⟩,
    (c8_insufficient_sample_warning snBin dataNil 0 1 [] (by decide) (by decide)
      (by intro Z hZ; cases hZ)).1⟩

/-! ### Claim C6 -/

/-- C6 counterexample: with singleton declared domains for X and Y and
one data row, exactly one cell pair remains after dropping, yet the
function neither raises nor produces any distinct typed untestable
result: it proceeds into the ordinary chi-square call (statistic 0,
zero degrees of freedom) exactly like a normal test. -/
theorem c6_untestable_counterexample :
    (keptCells snOne dataOne 0 1 []).length < 2 ∧
    (test_conditional_independence snOne dataOne 0 1 []).2 =
      Except.ok (PValue.chiSf (PyF.fin 0) 0) ∧
    (test_conditional_independence snOne dataOne 0 1 []).2 ≠
      Except.error PyError.unpackEmpty := by
  refine ⟨by with_unfolding_all decide, by with_unfolding_all decide,
    by with_unfolding_all decide⟩

/-- C6 amended: when fewer than 2 cell pairs remain after dropping the
zero-expected cells, the function does not signal a typed untestable
result.  With zero remaining pairs (possible only when the cell grid is
empty) the unpacking of `zip(*[])` raises an uncaught ValueError; with
exactly one remaining pair it proceeds into the ordinary chi-square
computation with zero degrees of freedom. -/
theorem c6_amended_no_untestable_signal (sn : ℕ → List ℕ) (data : List Row) (X Y : ℕ)
    (Zs : List ℕ) :
    (keptCells sn data X Y Zs = [] →
      (test_conditional_independence sn data X Y Zs).2 = Except.error PyError.unpackEmpty) ∧
    ((keptCells sn data X Y Zs).length = 1 →
      (test_conditional_independence sn data X Y Zs).2 =
        Except.ok (PValue.chiSf (chiStat (keptCells sn data X Y Zs)) 0)) := by
  constructor
  · intro h
    simp [test_conditional_independence, h]
  · intro h
    have hk : (keptCells sn data X Y Zs).isEmpty = false := by
      rw [List.isEmpty_eq_false]
      intro he
      rw [he] at h
      cases h
    simp [test_conditional_independence, hk, h]

/-- C6 witness for the amended claim, at the singleton-domain input. -/
theorem c6_amended_no_untestable_signal_witness :
    (keptCells snOne dataOne 0 1 []).length = 1 ∧
    (test_conditional_independence snOne dataOne 0 1 []).2 =
      Except.ok (PValue.chiSf (chiStat (keptCells snOne dataOne 0 1 [])) 0) :=
  ⟨by with_unfolding_all decide,
    (c6_amended_no_untestable_signal snOne dataOne 0 1 []).2 (by with_unfolding_all decide)⟩

/-! ### Claim C7 -/

/-- C7: cells of a zero-count z-combination are not excluded.  On a
dataset whose declared Z domain has an unobserved state, the zero
z-marginal makes the expected value 0*0/0 = NaN; NaN compares unequal
to 0, so the cell survives the filter and the NaN statistic reaches the
returned p-value (scipy maps a NaN statistic to a NaN p-value), where
the claim requires exclusion and a well-defined result. -/
theorem c7_zero_marginal_nan_code_bug :
    NZ snBin dataZeroZ 0 1 [2] [1] = 0 ∧
    (0, PyF.nan) ∈ keptCells snBin dataZeroZ 0 1 [2] ∧
    (test_conditional_independence snBin dataZeroZ 0 1 [2]).2 =
      Except.ok (PValue.chiSf PyF.nan 7) := by
  refine ⟨by with_unfolding_all decide, by with_unfolding_all decide,
    by with_unfolding_all decide⟩

/-! ### Claim C9 -/

/-- C9 counterexample: the call with Zs = [X] (the conditioning set
contains X itself) is not rejected; it executes the test and returns an
ordinary p-value result (statistic 0 with one degree of freedom, so
p-value 1: the silent wrong answer), not an invalid-argument signal. -/
theorem c9_no_validation_counterexample :
    0 ∈ ([0] : List ℕ) ∧
    (test_conditional_independence snBin dataDiag 0 1 [0]).2 =
      Except.ok (PValue.chiSf (PyF.fin 0) 1) ∧
    (test_conditional_independence snBin dataDiag 0 1 [0]).2 ≠
      Except.error PyError.invalidArgument := by
  refine ⟨by decide, by with_unfolding_all decide, by with_unfolding_all decide⟩

/-- C9 amended: `test_conditional_independence` performs no validation
of the conditioning set at all; no call, malformed or not, ever
produces an invalid-argument signal. -/
theorem c9_amended_no_rejection (sn : ℕ → List ℕ) (data : List Row) (X Y : ℕ)
    (Zs : List ℕ) :
    (test_conditional_independence sn data X Y Zs).2 ≠
      Except.error PyError.invalidArgument := by
  by_cases h : (keptCells sn data X Y Zs).isEmpty
  · simp [test_conditional_independence, h]
  · rw [Bool.not_eq_true] at h
    simp [test_conditional_independence, h]
